import Mathlib

/-!
# Verification of the GenomicsDB query-API header (`genomicsdb.h`)

Shallow embedding of the pure computational content of
`src/main/cpp/include/api/genomicsdb.h` (both header versions contained in
the repository), together with theorems settling the specification claims
about it.  Machine integers written to files are modelled as naturals with
explicit truncation; the byte stream written by an emitter function is
modelled as the `List Nat` of its byte values (little-endian host order,
matching the `write((char*)&v, 4)` calls in the source).
-/

namespace GenomicsDB

/-- The four bytes produced by `file.write((char*)&v, 4)` on a little-endian
host for an integer whose low 32 bits are `n % 2^32`. -/
def le32 (n : Nat) : List Nat :=
  [n % 256, n / 256 % 256, n / 65536 % 256, n / 16777216 % 256]

/-- The successive values of a C loop variable `for(int v = 0; v < n; v++)`,
as integers; empty when `n ≤ 0`. A loop `for(int v = 0; v <= limit; v++)`
iterates over `intsBelow (limit + 1)`. -/
def intsBelow (n : Int) : List Int :=
  (List.range n.toNat).map fun i : Nat => (i : Int)

/-- `INT64_MAX` = 2^63 - 1. -/
def INT64_MAX : Int := 9223372036854775807

/-- `#define SCAN_FULL {{0, INT64_MAX}}` from the earlier header version
(line 79 of the concatenated source). -/
def SCAN_FULL_v0 : List (Int × Int) := [(0, INT64_MAX)]

/-- `#define SCAN_FULL {{0, INT64_MAX-1}}` from the current header version
(line 428 of the concatenated source). -/
def SCAN_FULL : List (Int × Int) := [(0, INT64_MAX - 1)]

/-- `genomic_field_t`: a field name, a pointer to a contiguous buffer, and an
element count.  The pointed-to memory is abstracted as total index→value maps,
one per reinterpretation used by the accessors (`int*`, `float*`, `char*`);
float contents are modelled opaquely as rationals since the claims about the
accessors concern only success and failure. -/
structure genomic_field_t where
  name : String
  memInt : Nat → Int
  memFloat : Nat → Rat
  memChar : Nat → Nat
  num_elements : Nat

/-- `genomic_field_t::check_offset`: throws a `GenomicsDBException` whose
message names the field and the offset when `offset >= num_elements`. -/
def genomic_field_t.check_offset (f : genomic_field_t) (offset : Nat) :
    Except String Unit :=
  if offset ≥ f.num_elements then
    Except.error ("Genomic Field=" ++ f.name ++ " offset=" ++ toString offset ++
      " greater than number of elements")
  else
    Except.ok ()

/-- `genomic_field_t::int_value_at`. -/
def genomic_field_t.int_value_at (f : genomic_field_t) (offset : Nat) :
    Except String Int := do
  f.check_offset offset
  pure (f.memInt offset)

/-- `genomic_field_t::float_value_at`. -/
def genomic_field_t.float_value_at (f : genomic_field_t) (offset : Nat) :
    Except String Rat := do
  f.check_offset offset
  pure (f.memFloat offset)

/-- `genomic_field_t::char_value_at`. -/
def genomic_field_t.char_value_at (f : genomic_field_t) (offset : Nat) :
    Except String Nat := do
  f.check_offset offset
  pure (f.memChar offset)

/-- The three magic bytes `{0x6c, 0x1b, 0x01}` written to the `.bed` file by
the `GenomicsDBPlinkProcessor` constructor before anything else. -/
def bed_magic : List Nat := [0x6c, 0x1b, 0x01]

/-- The 24 bytes written to the `.bgen` file by the `GenomicsDBPlinkProcessor`
constructor: offset (20), header length (20), placeholder `M` (0), placeholder
`N` (0), the magic `'b' 'g' 'e' 'n'`, and the flags word
`0b10000000000000000000000000001000 | compression`. -/
def bgen_header (compression : Nat) : List Nat :=
  le32 20 ++ le32 20 ++ le32 0 ++ le32 0 ++ [98, 103, 101, 110] ++
    le32 (2147483656 ||| compression)

/-- State of the BED bit-packer: the 1-byte accumulator `bed_buf`, the
position `bed_buf_state` (number of 2-bit codes already in the accumulator),
and the bytes written to the `.bed` file so far. -/
structure BedState where
  bed_buf : Nat
  bed_buf_state : Nat
  out : List Nat
  deriving Repr, DecidableEq

/-- `GenomicsDBPlinkProcessor::write_to_bed`: `bed_buf += x << bed_buf_state*2;
++bed_buf_state %= 4;` and the full byte is written out when the state wraps
to 0.  `char` accumulation is truncation mod 256. -/
def write_to_bed (s : BedState) (x : Nat) : BedState :=
  let buf := (s.bed_buf + x * 2 ^ (s.bed_buf_state * 2)) % 256
  let st := (s.bed_buf_state + 1) % 4
  if st = 0 then ⟨0, st, s.out ++ [buf]⟩ else ⟨buf, st, s.out⟩

/-- `GenomicsDBPlinkProcessor::flush_to_bed`: writes the pending partial byte
(if any) and resets the accumulator. -/
def flush_to_bed (s : BedState) : BedState :=
  if s.bed_buf_state ≠ 0 then ⟨0, 0, s.out ++ [s.bed_buf]⟩ else s

/-- Bytes appended to the `.bed` file by feeding the 2-bit codes of one
variant row through `write_to_bed` and finishing with `flush_to_bed`,
starting from the cleared accumulator. -/
def bed_emit (codes : List Nat) : List Nat :=
  (flush_to_bed (codes.foldl write_to_bed ⟨0, 0, []⟩)).out

/-- Content of a `.bed` file: the constructor's magic bytes followed by the
packed genotype bytes. -/
def bed_file_bytes (codes : List Nat) : List Nat :=
  bed_magic ++ bed_emit codes

/-- The body of the recursive lambda `enumerate_unphased` inside
`GenomicsDBPlinkProcessor::bgen_enumerate_unphased`.  `used` is the running
sum of chosen counts, `counts` holds the entries `allele_counts[depth+1 ..
alleles-1]` already set by the enclosing loops (`allele_counts[depth]` is
prepended at each level, so the callback receives the vector in index order).
The inner loop bound is `limit = ploidy - used - ((depth == alleles-1) &&
drop_last)`, which can be `-1`, in which case the loop body never runs.
Each callback invocation is recorded as a pair (vector, `ind`); the source
initializes `ind = -1` and never increments it (the `++ind` is commented
out), so every recorded index is `-1`. -/
def unphasedGo (ploidy alleles : Nat) (drop_last : Bool) :
    Nat → Int → List Int → List (List Int × Int)
  | 0, used, counts => [(((ploidy : Int) - used) :: counts, -1)]
  | depth + 1, used, counts =>
    let limit : Int :=
      (ploidy : Int) - used - (if depth + 1 = alleles - 1 ∧ drop_last then 1 else 0)
    (intsBelow (limit + 1)).flatMap fun i =>
      unphasedGo ploidy alleles drop_last depth (used + i) (i :: counts)

/-- `GenomicsDBPlinkProcessor::bgen_enumerate_unphased`: the list of
(allele-count vector, index) arguments passed to the callback, in invocation
order.  The source calls the recursive lambda as `enumerate_unphased(0,
alleles - 1)`; `alleles ≥ 1` is assumed (for `alleles = 0` the C++ recursion
does not terminate). -/
def bgen_enumerate_unphased (ploidy alleles : Nat) (drop_last : Bool) :
    List (List Int × Int) :=
  unphasedGo ploidy alleles drop_last (alleles - 1) 0 []

/-- `GenomicsDBPlinkProcessor::bgen_enumerate_phased`: the list of
(`{i, j}` vector, index) arguments passed to the callback.  The loops are
`for(int i = 0; i < ploidy; i++) for(int j = 0; j < limit; j++)` with
`limit = alleles - drop_last`, and the callback receives `++ind` with `ind`
initialized to `-1`, i.e. the 0-based invocation number. -/
def bgen_enumerate_phased (ploidy alleles : Nat) (drop_last : Bool) :
    List (List Int × Int) :=
  let limit : Int := (alleles : Int) - (if drop_last then 1 else 0)
  (((intsBelow (ploidy : Int)).flatMap fun i =>
    (intsBelow limit).map fun j => [i, j]).enum).map fun p => (p.2, (p.1 : Int))

/-- `GenomicsDBPlinkProcessor::bgen_empty_cell`: appends one zero byte to
`codec_buf` per slot of the probability enumeration (phased or unphased, with
the default `drop_last = true`), and nothing else. -/
def bgen_empty_cell (ploidy alleles : Nat) (phased : Bool)
    (codec_buf : List Nat) : List Nat :=
  let slots := if phased then bgen_enumerate_phased ploidy alleles true
               else bgen_enumerate_unphased ploidy alleles true
  codec_buf ++ slots.map fun _ => 0

/-- `GenomicsDBPlinkProcessor::bgen_finish_gt`: the bytes written to the
`.bgen` file.  The buffered genotype block `codec_buf` has its bytes 7 and 8
patched to `min_ploidy` and `max_ploidy`; then, with compression enabled, the
emitter writes the 4-byte total size (compressed size plus 4), the 4-byte
uncompressed size `D`, and the compressed bytes; without compression it
writes the 4-byte uncompressed size followed by the raw buffer.  The codec is
abstracted as the function `compress`. -/
def bgen_finish_gt (compression : Nat) (compress : List Nat → List Nat)
    (min_ploidy max_ploidy : Nat) (codec_buf : List Nat) : List Nat :=
  let buf := (codec_buf.set 7 min_ploidy).set 8 max_ploidy
  let uncompressed_size := buf.length
  if compression ≠ 0 then
    let data := compress buf
    let total_size := data.length + 4
    le32 total_size ++ le32 uncompressed_size ++ data
  else
    le32 uncompressed_size ++ buf

/-! ## Specification-side definitions used to state the claims -/

/-- Colexicographic strict order on allele-count vectors: compare the last
coordinate first. -/
def colexLt (v w : List Int) : Prop :=
  List.Lex (· < ·) v.reverse w.reverse

/-- All vectors of `len + 1` non-negative integers summing to `total`, in
colexicographic order (last coordinate ascending outermost). -/
def sumVecs : Nat → Nat → List (List Int)
  | total, 0 => [[(total : Int)]]
  | total, len + 1 =>
    (List.range (total + 1)).flatMap fun i =>
      (sumVecs (total - i) len).map fun w => w ++ [(i : Int)]

/-- The completed bytes of the BED packing of a code sequence: four 2-bit
codes per byte, code `i` of a byte at bit-pair `i`. -/
def bedPackFull : List Nat → List Nat
  | a :: b :: c :: d :: rest => (a + 4 * b + 16 * c + 64 * d) :: bedPackFull rest
  | _ => []

/-- The value of the pending partial byte after packing a code sequence. -/
def bedPending : List Nat → Nat
  | _ :: _ :: _ :: _ :: rest => bedPending rest
  | [] => 0
  | [a] => a
  | [a, b] => a + 4 * b
  | [a, b, c] => a + 4 * b + 16 * c

/-- The full BED packing of a code sequence: completed bytes, then the
zero-padded trailing partial byte when the length is not a multiple of 4. -/
def bedPack (codes : List Nat) : List Nat :=
  bedPackFull codes ++
    (if codes.length % 4 = 0 then [] else [bedPending codes])

/-- Unpack one BED byte into its four 2-bit codes. -/
def bedUnpackByte (b : Nat) : List Nat :=
  [b % 4, b / 4 % 4, b / 16 % 4, b / 64 % 4]

/-- Unpack a BED byte stream into the carried 2-bit codes. -/
def bedUnpack (bytes : List Nat) : List Nat :=
  bytes.flatMap bedUnpackByte

/-! ## Claims about the constructor header bytes, SCAN_FULL and field access -/

/-- C3: on construction of the PLINK/BGEN emitter, the first 24 bytes written
to the BGEN file are the 4-byte offset 20, the 4-byte header length 20, 4-byte
zero placeholders for the variant count M and the sample count N, the magic
`'b' 'g' 'e' 'n'`, and a flags word holding the compression code in bits 0-1,
layout version 2 in bits 2-5, and the set "sample identifiers present" bit
(bit 31). -/
theorem C3_bgen_header (c : Nat) (h : c < 4) :
    bgen_header c =
      le32 20 ++ le32 20 ++ le32 0 ++ le32 0 ++ [98, 103, 101, 110] ++
        le32 (2147483656 ||| c) ∧
    (bgen_header c).length = 24 ∧
    (2147483656 ||| c) % 4 = c ∧
    (2147483656 ||| c) / 4 % 16 = 2 ∧
    (2147483656 ||| c) / 2 ^ 31 % 2 = 1 := by
  refine ⟨rfl, rfl, ?_, ?_, ?_⟩ <;> interval_cases c <;> decide

theorem C3_witness :
    (1 : Nat) < 4 ∧
    (bgen_header 1 =
      le32 20 ++ le32 20 ++ le32 0 ++ le32 0 ++ [98, 103, 101, 110] ++
        le32 (2147483656 ||| 1) ∧
    (bgen_header 1).length = 24 ∧
    (2147483656 ||| 1) % 4 = 1 ∧
    (2147483656 ||| 1) / 4 % 16 = 2 ∧
    (2147483656 ||| 1) / 2 ^ 31 % 2 = 1) :=
  ⟨by decide, C3_bgen_header 1 (by decide)⟩

/-- C7 (amended): the current header version's `SCAN_FULL` denotes the single
range `[[0, 2^63 - 2]]`; the earlier header version's `SCAN_FULL` (there also
the default row ranges) denotes `[[0, 2^63 - 1]]`. -/
theorem C7_scan_full :
    SCAN_FULL = [((0 : Int), 2 ^ 63 - 2)] ∧
    SCAN_FULL_v0 = [((0 : Int), 2 ^ 63 - 1)] := by
  exact ⟨by decide, by decide⟩

/-- C7 counterexample: the earlier header version's `SCAN_FULL` does not
denote `[[0, 2^63 - 2]]`, refuting the claim's value for that version. -/
theorem C7_counterexample : SCAN_FULL_v0 ≠ [((0 : Int), 2 ^ 63 - 2)] := by
  decide

/-- C9: every BED file produced by the PLINK emitter begins with the 3-byte
magic `0x6C 0x1B 0x01`, written at emitter construction before any genotype
bytes. -/
theorem C9_bed_magic_bytes (codes : List Nat) :
    (bed_file_bytes codes).take 3 = [0x6c, 0x1b, 0x01] ∧
    bed_file_bytes codes = [0x6c, 0x1b, 0x01] ++ bed_emit codes :=
  ⟨rfl, rfl⟩

/-- C8: the typed accessors of a `genomic_field_t` succeed exactly when the
offset is below `num_elements`, and for every offset at or beyond
`num_elements` they raise a GenomicsDB error naming the field and the
offset. -/
theorem C8_field_accessors (f : genomic_field_t) (offset : Nat) :
    (f.int_value_at offset =
      if offset < f.num_elements then Except.ok (f.memInt offset)
      else Except.error ("Genomic Field=" ++ f.name ++ " offset=" ++
        toString offset ++ " greater than number of elements")) ∧
    (f.float_value_at offset =
      if offset < f.num_elements then Except.ok (f.memFloat offset)
      else Except.error ("Genomic Field=" ++ f.name ++ " offset=" ++
        toString offset ++ " greater than number of elements")) ∧
    (f.char_value_at offset =
      if offset < f.num_elements then Except.ok (f.memChar offset)
      else Except.error ("Genomic Field=" ++ f.name ++ " offset=" ++
        toString offset ++ " greater than number of elements")) ∧
    ((∃ v, f.int_value_at offset = Except.ok v) ↔ offset < f.num_elements) ∧
    ((∃ v, f.float_value_at offset = Except.ok v) ↔ offset < f.num_elements) ∧
    ((∃ v, f.char_value_at offset = Except.ok v) ↔ offset < f.num_elements) := by
  by_cases h : offset < f.num_elements
  · have h' : ¬ offset ≥ f.num_elements := by omega
    simp [genomic_field_t.int_value_at, genomic_field_t.float_value_at,
      genomic_field_t.char_value_at, genomic_field_t.check_offset, h, h',
      bind, Except.bind, pure, Except.pure]
  · have h' : offset ≥ f.num_elements := by omega
    simp [genomic_field_t.int_value_at, genomic_field_t.float_value_at,
      genomic_field_t.char_value_at, genomic_field_t.check_offset, h, h',
      bind, Except.bind, pure, Except.pure]

/-- C2: `bgen_finish_gt` patches bytes 7 and 8 of the buffered genotype block
to the minimum and maximum ploidy, leaves all other bytes unchanged, and then
writes: with compression, a 4-byte total size equal to the compressed size
plus 4, the 4-byte uncompressed size (the buffer length), and the compressed
bytes; without compression, only the 4-byte uncompressed size followed by the
raw buffer. -/
theorem C2_finish_gt (compress : List Nat → List Nat) (m M : Nat)
    (buf : List Nat) (h : 9 ≤ buf.length) :
    ((buf.set 7 m).set 8 M)[7]? = some m ∧
    ((buf.set 7 m).set 8 M)[8]? = some M ∧
    (∀ i, i ≠ 7 → i ≠ 8 → ((buf.set 7 m).set 8 M)[i]? = buf[i]?) ∧
    (∀ c, c ≠ 0 → bgen_finish_gt c compress m M buf =
      le32 ((compress ((buf.set 7 m).set 8 M)).length + 4) ++ le32 buf.length ++
        compress ((buf.set 7 m).set 8 M)) ∧
    bgen_finish_gt 0 compress m M buf =
      le32 buf.length ++ (buf.set 7 m).set 8 M := by
  refine ⟨?_, ?_, ?_, ?_, ?_⟩
  · rw [List.getElem?_set_ne (by omega)]
    exact List.getElem?_set_self (by omega)
  · exact List.getElem?_set_self (by simpa using by omega)
  · intro i h7 h8
    rw [List.getElem?_set_ne (by omega), List.getElem?_set_ne (by omega)]
  · intro c hc
    simp [bgen_finish_gt, hc]
  · simp [bgen_finish_gt]

theorem C2_witness :
    9 ≤ (List.replicate 10 (0 : Nat)).length ∧
    ((((List.replicate 10 (0 : Nat)).set 7 1).set 8 2)[7]? = some 1 ∧
    (((List.replicate 10 (0 : Nat)).set 7 1).set 8 2)[8]? = some 2 ∧
    (∀ i, i ≠ 7 → i ≠ 8 →
      (((List.replicate 10 (0 : Nat)).set 7 1).set 8 2)[i]? =
        (List.replicate 10 (0 : Nat))[i]?) ∧
    (∀ c, c ≠ 0 → bgen_finish_gt c id 1 2 (List.replicate 10 (0 : Nat)) =
      le32 ((id (((List.replicate 10 (0 : Nat)).set 7 1).set 8 2)).length + 4) ++
        le32 (List.replicate 10 (0 : Nat)).length ++
        id (((List.replicate 10 (0 : Nat)).set 7 1).set 8 2)) ∧
    bgen_finish_gt 0 id 1 2 (List.replicate 10 (0 : Nat)) =
      le32 (List.replicate 10 (0 : Nat)).length ++
        ((List.replicate 10 (0 : Nat)).set 7 1).set 8 2) ∧
    bgen_finish_gt 1 id 1 2 (List.replicate 10 (0 : Nat)) =
      le32 ((id (((List.replicate 10 (0 : Nat)).set 7 1).set 8 2)).length + 4) ++
        le32 (List.replicate 10 (0 : Nat)).length ++
        id (((List.replicate 10 (0 : Nat)).set 7 1).set 8 2) :=
  ⟨by decide, C2_finish_gt id 1 2 (List.replicate 10 0) (by decide),
    (C2_finish_gt id 1 2 (List.replicate 10 0) (by decide)).2.2.2.1 1 (by decide)⟩

/-! ## The phased probability-slot enumeration (claims C4 and C10) -/

theorem intsBelow_natCast (n : Nat) :
    intsBelow (n : Int) = (List.range n).map fun i : Nat => (i : Int) := by
  simp [intsBelow]

theorem enum_cast_fst {a : Type} (X : List a) :
    ((X.enum.map fun p => (p.2, (p.1 : Int))).map Prod.fst) = X := by
  rw [List.map_map]
  exact List.enum_map_snd X

theorem enum_cast_snd {a : Type} (X : List a) :
    ((X.enum.map fun p => (p.2, (p.1 : Int))).map Prod.snd) =
      (List.range X.length).map fun n : Nat => (n : Int) := by
  rw [List.map_map, ← List.enum_map_fst X, List.map_map]
  rfl

/-- The loop structure of `bgen_enumerate_phased` with `drop_last = true`,
re-indexed over `Nat` ranges. -/
theorem phased_pairs_eq (P K : Nat) :
    ((intsBelow (P : Int)).flatMap fun i =>
        (intsBelow ((K : Int) - 1)).map fun j => [i, j]) =
      (List.range P).flatMap fun i =>
        (List.range (K - 1)).map fun j : Nat => [(i : Int), (j : Int)] := by
  have hK : ((K : Int) - 1).toNat = K - 1 := by omega
  simp only [intsBelow, Int.toNat_natCast, hK, List.flatMap_map, List.map_map]
  rfl

theorem phased_map_fst (P K : Nat) :
    (bgen_enumerate_phased P K true).map Prod.fst =
      (intsBelow (P : Int)).flatMap fun i =>
        (intsBelow ((K : Int) - 1)).map fun j => [i, j] :=
  enum_cast_fst _

theorem phased_map_snd (P K : Nat) :
    (bgen_enumerate_phased P K true).map Prod.snd =
      (List.range (bgen_enumerate_phased P K true).length).map
        fun n : Nat => (n : Int) := by
  have hlen : (bgen_enumerate_phased P K true).length =
      ((intsBelow (P : Int)).flatMap fun i =>
        (intsBelow ((K : Int) - 1)).map fun j => [i, j]).length := by
    have := congrArg List.length (phased_map_fst P K)
    rwa [List.length_map] at this
  rw [hlen]
  exact enum_cast_snd _

theorem phased_length (P K : Nat) :
    (bgen_enumerate_phased P K true).length = P * (K - 1) := by
  have h := congrArg List.length (phased_map_fst P K)
  rw [List.length_map, phased_pairs_eq] at h
  rw [h, List.flatMap, List.length_flatten, List.map_map]
  simp [Function.comp_def, List.map_const', List.sum_const_nat]

/-- C4: with `drop_last = true`, `bgen_enumerate_phased` invokes its callback
exactly `P * (K - 1)` times, once per pair (haplotype index `i`, allele index
`j`) with `0 ≤ i < P` and `0 ≤ j < K - 1`, haplotype index in the outer loop
and the K-th allele dropped for each haplotype. -/
theorem C4_phased_enumeration (P K : Nat) (hK : 1 ≤ K) :
    (bgen_enumerate_phased P K true).length = P * (K - 1) ∧
    (bgen_enumerate_phased P K true).map Prod.fst =
      (List.range P).flatMap fun i =>
        (List.range (K - 1)).map fun j : Nat => [(i : Int), (j : Int)] := by
  refine ⟨phased_length P K, ?_⟩
  rw [phased_map_fst]
  exact phased_pairs_eq P K

theorem C4_witness :
    1 ≤ 3 ∧
    ((bgen_enumerate_phased 2 3 true).length = 2 * (3 - 1) ∧
    (bgen_enumerate_phased 2 3 true).map Prod.fst =
      (List.range 2).flatMap fun i =>
        (List.range (3 - 1)).map fun j : Nat => [(i : Int), (j : Int)]) :=
  ⟨by decide, C4_phased_enumeration 2 3 (by decide)⟩

/-- Every callback invocation recorded by the unphased enumerator carries the
slot index `-1`: the source initializes `ind = -1` and the increment is
commented out. -/
theorem unphasedGo_snd (P K : Nat) (dl : Bool) :
    ∀ (d : Nat) (used : Int) (counts : List Int),
      ∀ e ∈ unphasedGo P K dl d used counts, e.2 = -1 := by
  intro d
  induction d with
  | zero =>
    intro used counts e he
    simp only [unphasedGo, List.mem_singleton] at he
    rw [he]
  | succ d ih =>
    intro used counts e he
    simp only [unphasedGo, List.mem_flatMap] at he
    obtain ⟨i, _, hi⟩ := he
    exact ih _ _ e hi

/-- C10: every callback invocation made by `bgen_enumerate_unphased` receives
`-1` as its slot-index argument, whereas `bgen_enumerate_phased` passes the
consecutive slot indices 0, 1, 2, ... in enumeration order. -/
theorem C10_slot_indices (P K : Nat) (hP : 1 ≤ P) (hK : 2 ≤ K) :
    (∀ e ∈ bgen_enumerate_unphased P K true, e.2 = -1) ∧
    (bgen_enumerate_phased P K true).map Prod.snd =
      (List.range (bgen_enumerate_phased P K true).length).map fun n : Nat => (n : Int) :=
  ⟨fun e he => unphasedGo_snd P K true _ _ _ e he, phased_map_snd P K⟩

theorem C10_witness :
    (1 ≤ 2 ∧ 2 ≤ 3) ∧
    ((∀ e ∈ bgen_enumerate_unphased 2 3 true, e.2 = -1) ∧
    (bgen_enumerate_phased 2 3 true).map Prod.snd =
      (List.range (bgen_enumerate_phased 2 3 true).length).map fun n : Nat => (n : Int)) :=
  ⟨⟨by decide, by decide⟩, C10_slot_indices 2 3 (by decide) (by decide)⟩

/-! ## The BED 2-bit packer (claims C6 and C9) -/

theorem write_step0 (out : List Nat) (a : Nat) (ha : a < 4) :
    write_to_bed ⟨0, 0, out⟩ a = ⟨a, 1, out⟩ := by
  simp [write_to_bed]
  omega

theorem write_step1 (out : List Nat) (v a : Nat) (hv : v < 4) (ha : a < 4) :
    write_to_bed ⟨v, 1, out⟩ a = ⟨v + 4 * a, 2, out⟩ := by
  simp [write_to_bed]
  omega

theorem write_step2 (out : List Nat) (v a : Nat) (hv : v < 16) (ha : a < 4) :
    write_to_bed ⟨v, 2, out⟩ a = ⟨v + 16 * a, 3, out⟩ := by
  simp [write_to_bed]
  omega

theorem write_step3 (out : List Nat) (v a : Nat) (hv : v < 64) (ha : a < 4) :
    write_to_bed ⟨v, 3, out⟩ a = ⟨0, 0, out ++ [v + 64 * a]⟩ := by
  simp [write_to_bed]
  omega

/-- A byte is written exactly when the accumulator fills: folding the packer
over a code sequence from the cleared state leaves the pending partial byte,
the count of pending codes, and the completed bytes appended to the
output. -/
theorem bed_foldl_char : ∀ (codes : List Nat), (∀ x ∈ codes, x < 4) →
    ∀ (out : List Nat),
      codes.foldl write_to_bed ⟨0, 0, out⟩ =
        ⟨bedPending codes, codes.length % 4, out ++ bedPackFull codes⟩
  | [], _, out => by simp [bedPending, bedPackFull]
  | [a], h, out => by
    have ha : a < 4 := h a (by simp)
    rw [List.foldl_cons, List.foldl_nil, write_step0 out a ha]
    simp [bedPending, bedPackFull]
  | [a, b], h, out => by
    have ha : a < 4 := h a (by simp)
    have hb : b < 4 := h b (by simp)
    rw [List.foldl_cons, List.foldl_cons, List.foldl_nil, write_step0 out a ha,
      write_step1 out a b ha hb]
    simp [bedPending, bedPackFull]
  | [a, b, c], h, out => by
    have ha : a < 4 := h a (by simp)
    have hb : b < 4 := h b (by simp)
    have hc : c < 4 := h c (by simp)
    rw [List.foldl_cons, List.foldl_cons, List.foldl_cons, List.foldl_nil,
      write_step0 out a ha, write_step1 out a b ha hb,
      write_step2 out (a + 4 * b) c (by omega) hc]
    simp [bedPending, bedPackFull]
  | a :: b :: c :: d :: rest, h, out => by
    have ha : a < 4 := h a (by simp)
    have hb : b < 4 := h b (by simp)
    have hc : c < 4 := h c (by simp)
    have hd : d < 4 := h d (by simp)
    have hrest : ∀ x ∈ rest, x < 4 := fun x hx => h x (by simp [hx])
    rw [List.foldl_cons, List.foldl_cons, List.foldl_cons, List.foldl_cons,
      write_step0 out a ha, write_step1 out a b ha hb,
      write_step2 out (a + 4 * b) c (by omega) hc,
      write_step3 out (a + 4 * b + 16 * c) d (by omega) hd,
      bed_foldl_char rest hrest (out ++ [a + 4 * b + 16 * c + 64 * d])]
    have hmod : (rest.length + 1 + 1 + 1 + 1) % 4 = rest.length % 4 := by omega
    simp [bedPending, bedPackFull, hmod]

/-- Packing a block of four codes contributes one completed byte. -/
theorem bedPack_cons4 (a b c d : Nat) (rest : List Nat) :
    bedPack (a :: b :: c :: d :: rest) =
      (a + 4 * b + 16 * c + 64 * d) :: bedPack rest := by
  unfold bedPack
  have hmod : (rest.length + 1 + 1 + 1 + 1) % 4 = rest.length % 4 := by omega
  simp only [bedPackFull, bedPending, List.length_cons, hmod, List.cons_append]

theorem bedPack_length : ∀ codes : List Nat,
    (bedPack codes).length = (codes.length + 3) / 4
  | [] => by simp [bedPack, bedPackFull]
  | [a] => by simp [bedPack, bedPackFull, bedPending]
  | [a, b] => by simp [bedPack, bedPackFull, bedPending]
  | [a, b, c] => by simp [bedPack, bedPackFull, bedPending]
  | a :: b :: c :: d :: rest => by
    rw [bedPack_cons4, List.length_cons, bedPack_length rest]
    simp only [List.length_cons]
    omega

theorem bedPackFull_length : ∀ codes : List Nat,
    (bedPackFull codes).length = codes.length / 4
  | [] => by simp [bedPackFull]
  | [a] => by simp [bedPackFull]
  | [a, b] => by simp [bedPackFull]
  | [a, b, c] => by simp [bedPackFull]
  | a :: b :: c :: d :: rest => by
    show (bedPackFull rest).length + 1 = _
    rw [bedPackFull_length rest]
    simp only [List.length_cons]
    omega

/-- Unpacking the packed bytes recovers the codes followed by the zero padding
of the trailing partial byte. -/
theorem bedUnpack_bedPack : ∀ codes : List Nat, (∀ x ∈ codes, x < 4) →
    bedUnpack (bedPack codes) =
      codes ++ List.replicate ((4 - codes.length % 4) % 4) 0
  | [], _ => by simp [bedPack, bedPackFull, bedUnpack]
  | [a], h => by
    have ha : a < 4 := h a (by simp)
    simp [bedPack, bedPackFull, bedPending, bedUnpack, bedUnpackByte]
    omega
  | [a, b], h => by
    have ha : a < 4 := h a (by simp)
    have hb : b < 4 := h b (by simp)
    simp [bedPack, bedPackFull, bedPending, bedUnpack, bedUnpackByte]
    omega
  | [a, b, c], h => by
    have ha : a < 4 := h a (by simp)
    have hb : b < 4 := h b (by simp)
    have hc : c < 4 := h c (by simp)
    simp [bedPack, bedPackFull, bedPending, bedUnpack, bedUnpackByte]
    omega
  | a :: b :: c :: d :: rest, h => by
    have ha : a < 4 := h a (by simp)
    have hb : b < 4 := h b (by simp)
    have hc : c < 4 := h c (by simp)
    have hd : d < 4 := h d (by simp)
    have hrest : ∀ x ∈ rest, x < 4 := fun x hx => h x (by simp [hx])
    rw [bedPack_cons4]
    show bedUnpackByte (a + 4 * b + 16 * c + 64 * d) ++ bedUnpack (bedPack rest) = _
    rw [bedUnpack_bedPack rest hrest]
    have hmod : (rest.length + 1 + 1 + 1 + 1) % 4 = rest.length % 4 := by omega
    simp only [bedUnpackByte, List.length_cons, hmod, List.cons_append,
      List.append_assoc, List.nil_append]
    have h1 : (a + 4 * b + 16 * c + 64 * d) % 4 = a := by omega
    have h2 : (a + 4 * b + 16 * c + 64 * d) / 4 % 4 = b := by omega
    have h3 : (a + 4 * b + 16 * c + 64 * d) / 16 % 4 = c := by omega
    have h4 : (a + 4 * b + 16 * c + 64 * d) / 64 % 4 = d := by omega
    rw [h1, h2, h3, h4]

theorem bed_emit_eq_bedPack (codes : List Nat) (h : ∀ x ∈ codes, x < 4) :
    bed_emit codes = bedPack codes := by
  unfold bed_emit
  rw [bed_foldl_char codes h []]
  unfold flush_to_bed bedPack
  by_cases h4 : codes.length % 4 = 0 <;> simp [h4]

/-- C6: feeding a sequence of 2-bit genotype codes through `write_to_bed` and
flushing packs the codes four per byte with the i-th code of a byte at
bit-pair i, emits a byte exactly when it becomes full (plus the zero-padded
partial byte at flush), and unpacking the written bytes reproduces the
original code sequence (missing markers included). -/
theorem C6_bed_roundtrip (codes : List Nat) (h : ∀ x ∈ codes, x < 4) :
    bed_emit codes = bedPack codes ∧
    (bedUnpack (bed_emit codes)).take codes.length = codes ∧
    (bedUnpack (bed_emit codes)).drop codes.length =
      List.replicate ((4 - codes.length % 4) % 4) 0 ∧
    (bed_emit codes).length = (codes.length + 3) / 4 ∧
    (∀ n, (((codes.take n).foldl write_to_bed ⟨0, 0, []⟩).out).length =
      min n codes.length / 4) := by
  have hemit := bed_emit_eq_bedPack codes h
  have hun : bedUnpack (bed_emit codes) =
      codes ++ List.replicate ((4 - codes.length % 4) % 4) 0 := by
    rw [hemit]
    exact bedUnpack_bedPack codes h
  refine ⟨hemit, ?_, ?_, ?_, ?_⟩
  · rw [hun]
    exact List.take_left' rfl
  · rw [hun]
    exact List.drop_left' rfl
  · rw [hemit]
    exact bedPack_length codes
  · intro n
    rw [bed_foldl_char (codes.take n) (fun x hx => h x (List.take_subset n codes hx)) []]
    show (bedPackFull (codes.take n)).length = _
    rw [bedPackFull_length, List.length_take]

theorem C6_witness :
    (∀ x ∈ [3, 2, 1, 0, 2], x < 4) ∧
    (bed_emit [3, 2, 1, 0, 2] = bedPack [3, 2, 1, 0, 2] ∧
    (bedUnpack (bed_emit [3, 2, 1, 0, 2])).take (List.length [3, 2, 1, 0, 2]) =
      [3, 2, 1, 0, 2] ∧
    (bedUnpack (bed_emit [3, 2, 1, 0, 2])).drop (List.length [3, 2, 1, 0, 2]) =
      List.replicate ((4 - (List.length [3, 2, 1, 0, 2]) % 4) % 4) 0 ∧
    (bed_emit [3, 2, 1, 0, 2]).length = ((List.length [3, 2, 1, 0, 2]) + 3) / 4 ∧
    (∀ n, ((([3, 2, 1, 0, 2].take n).foldl write_to_bed ⟨0, 0, []⟩).out).length =
      min n (List.length [3, 2, 1, 0, 2]) / 4)) :=
  ⟨by decide, C6_bed_roundtrip [3, 2, 1, 0, 2] (by decide)⟩

/-! ## The unphased probability-slot enumeration (claims C1 and C5) -/

theorem lex_lt_irrefl : ∀ l : List Int, ¬ List.Lex (· < ·) l l
  | _ :: t, List.Lex.cons h => lex_lt_irrefl t h
  | a :: _, List.Lex.rel h => lt_irrefl a h

theorem colexLt_irrefl (v : List Int) : ¬ colexLt v v :=
  lex_lt_irrefl v.reverse

theorem colexLt_snoc_lt {w w' : List Int} {i i' : Int} (h : i < i') :
    colexLt (w ++ [i]) (w' ++ [i']) := by
  unfold colexLt
  simp only [List.reverse_append, List.reverse_singleton, List.singleton_append]
  exact List.Lex.rel h

theorem colexLt_snoc_eq {w w' : List Int} (i : Int) (h : colexLt w w') :
    colexLt (w ++ [i]) (w' ++ [i]) := by
  unfold colexLt at h ⊢
  simp only [List.reverse_append, List.reverse_singleton, List.singleton_append]
  exact List.Lex.cons h

theorem flatMap_congr_mem {α β : Type} {l : List α} {f g : α → List β}
    (h : ∀ a ∈ l, f a = g a) : l.flatMap f = l.flatMap g := by
  show (l.map f).flatten = (l.map g).flatten
  rw [List.map_congr_left h]

theorem sumVecs_zero : ∀ len : Nat, sumVecs 0 len = [List.replicate (len + 1) 0]
  | 0 => by simp [sumVecs]
  | len + 1 => by
    show (List.range 1).flatMap _ = _
    rw [show List.range 1 = [0] from rfl]
    simp only [List.flatMap_cons, List.flatMap_nil, List.append_nil]
    rw [Nat.sub_zero, sumVecs_zero len]
    simp [List.replicate_succ']

/-- Hockey-stick identity in the list form produced by the enumeration. -/
theorem hockey_stick (len : Nat) : ∀ total : Nat,
    (((List.range (total + 1)).map fun i : Nat =>
      Nat.choose (total - i + len) len).sum) = Nat.choose (total + len + 1) (len + 1) := by
  intro total
  induction total with
  | zero => simp
  | succ t ih =>
    rw [List.range_succ_eq_map, List.map_cons, List.sum_cons, List.map_map]
    have hfun : ((fun i : Nat => Nat.choose (t + 1 - i + len) len) ∘ Nat.succ) =
        fun i : Nat => Nat.choose (t - i + len) len := by
      funext i
      simp only [Function.comp_apply, Nat.succ_eq_add_one]
      congr 1
      omega
    rw [hfun, ih, Nat.sub_zero]
    rw [show t + 1 + len = t + len + 1 from by omega]
    exact (Nat.choose_succ_succ (t + len + 1) len).symm

theorem sumVecs_length : ∀ (len total : Nat),
    (sumVecs total len).length = Nat.choose (total + len) len
  | 0, total => by simp [sumVecs]
  | len + 1, total => by
    show ((List.range (total + 1)).flatMap _).length = _
    rw [List.flatMap, List.length_flatten, List.map_map]
    have h : ∀ i ∈ List.range (total + 1),
        (List.length ∘ fun i : Nat =>
          (sumVecs (total - i) len).map fun w => w ++ [(i : Int)]) i =
        Nat.choose (total - i + len) len := by
      intro i _
      simp only [Function.comp_apply, List.length_map]
      exact sumVecs_length len (total - i)
    rw [List.map_congr_left h, hockey_stick len total]
    rfl

theorem sumVecs_mem : ∀ (len total : Nat) (v : List Int),
    v ∈ sumVecs total len ↔
      v.length = len + 1 ∧ (∀ x ∈ v, 0 ≤ x) ∧ v.sum = (total : Int)
  | 0, total, v => by
    simp only [sumVecs, List.mem_singleton]
    constructor
    · rintro rfl
      refine ⟨rfl, ?_, by simp⟩
      intro x hx
      rw [List.mem_singleton] at hx
      subst hx
      exact Int.natCast_nonneg total
    · rintro ⟨hlen, hpos, hsum⟩
      obtain ⟨x, rfl⟩ := List.length_eq_one.1 hlen
      rw [List.sum_cons, List.sum_nil, add_zero] at hsum
      rw [hsum]
  | len + 1, total, v => by
    show v ∈ (List.range (total + 1)).flatMap _ ↔ _
    simp only [List.mem_flatMap, List.mem_map, List.mem_range]
    constructor
    · rintro ⟨i, hi, w, hw, rfl⟩
      obtain ⟨hwl, hwpos, hwsum⟩ := (sumVecs_mem len (total - i) w).1 hw
      refine ⟨by simp [hwl], ?_, ?_⟩
      · intro x hx
        rcases List.mem_append.1 hx with hx | hx
        · exact hwpos x hx
        · rw [List.mem_singleton] at hx
          subst hx
          exact Int.natCast_nonneg i
      · rw [List.sum_append, List.sum_cons, List.sum_nil, add_zero, hwsum]
        omega
    · rintro ⟨hlen, hpos, hsum⟩
      have hne : v ≠ [] := by
        intro hv
        rw [hv] at hlen
        simp at hlen
      obtain ⟨x, t, hvt⟩ : ∃ x t, v = t ++ [x] := by
        cases hv : v.reverse with
        | nil => exact absurd (by simpa using congrArg List.reverse hv) hne
        | cons x t =>
          refine ⟨x, t.reverse, ?_⟩
          have := congrArg List.reverse hv
          simpa using this
      subst hvt
      have hx0 : 0 ≤ x := hpos x (by simp)
      have htpos : ∀ y ∈ t, 0 ≤ y := fun y hy => hpos y (by simp [hy])
      have htsum : t.sum + x = (total : Int) := by
        rw [List.sum_append, List.sum_cons, List.sum_nil, add_zero] at hsum
        exact hsum
      have hts : 0 ≤ t.sum := List.sum_nonneg htpos
      have hxt : x ≤ (total : Int) := by omega
      refine ⟨x.toNat, by omega, t, ?_, by rw [Int.toNat_of_nonneg hx0]⟩
      refine (sumVecs_mem len (total - x.toNat) t).2 ⟨?_, htpos, ?_⟩
      · have := hlen
        rw [List.length_append, List.length_singleton] at this
        omega
      · omega

theorem sumVecs_pairwise : ∀ (len total : Nat), (sumVecs total len).Pairwise colexLt
  | 0, total => by simp [sumVecs]
  | len + 1, total => by
    show ((List.range (total + 1)).flatMap _).Pairwise colexLt
    rw [List.pairwise_flatMap]
    constructor
    · intro i _
      rw [List.pairwise_map]
      exact (sumVecs_pairwise len (total - i)).imp fun h => colexLt_snoc_eq _ h
    · apply List.Pairwise.imp ?_ (List.pairwise_lt_range (total + 1))
      intro a b hab x hx y hy
      simp only [List.mem_map] at hx hy
      obtain ⟨w, _, rfl⟩ := hx
      obtain ⟨w', _, rfl⟩ := hy
      exact colexLt_snoc_lt (by exact_mod_cast hab)

/-- With `drop_last = false` the recursive enumerator produces exactly the
colex-ordered vectors summing to the remaining ploidy, each completed with
the already chosen coordinates. -/
theorem unphasedGo_false_eq (P K : Nat) : ∀ (d u : Nat) (s : List Int), u ≤ P →
    unphasedGo P K false d (u : Int) s =
      (sumVecs (P - u) d).map fun w => (w ++ s, (-1 : Int))
  | 0, u, s, hu => by
    simp only [unphasedGo, sumVecs, List.map_cons, List.map_nil,
      List.singleton_append]
    rw [show (P : Int) - (u : Int) = ((P - u : Nat) : Int) from by omega]
  | d + 1, u, s, hu => by
    show (intsBelow _).flatMap _ = _
    rw [show (if d + 1 = K - 1 ∧ false = true then (1 : Int) else 0) = 0 from by
      simp]
    rw [show ((P : Int) - (u : Nat) - 0 + 1) = ((P - u + 1 : Nat) : Int) from by
      omega]
    rw [intsBelow_natCast, List.flatMap_map]
    rw [show sumVecs (P - u) (d + 1) =
      (List.range (P - u + 1)).flatMap fun i =>
        (sumVecs (P - u - i) d).map fun w => w ++ [(i : Int)] from rfl]
    rw [List.map_flatMap]
    apply flatMap_congr_mem
    intro i hi
    rw [List.mem_range] at hi
    rw [show (u : Int) + (i : Nat) = ((u + i : Nat) : Int) from by omega]
    rw [unphasedGo_false_eq P K d (u + i) ((i : Int) :: s) (by omega)]
    rw [List.map_map]
    rw [show P - (u + i) = P - u - i from by omega]
    apply List.map_congr_left
    intro w _
    simp

/-- Below the top recursion level the `drop_last` flag is never consulted. -/
theorem unphasedGo_true_eq_false (P K : Nat) : ∀ (d : Nat), d < K - 1 →
    ∀ (u : Int) (s : List Int),
      unphasedGo P K true d u s = unphasedGo P K false d u s
  | 0, _, _, _ => rfl
  | d + 1, hd, u, s => by
    show (intsBelow _).flatMap _ = (intsBelow _).flatMap _
    rw [if_neg (show ¬(d + 1 = K - 1 ∧ true = true) from by simp; omega)]
    rw [if_neg (show ¬(d + 1 = K - 1 ∧ false = true) from by simp)]
    exact congrArg _ (funext fun i =>
      unphasedGo_true_eq_false P K d (by omega) (u + i) (i :: s))

/-- Unfolding the top recursion level of `bgen_enumerate_unphased` with
`drop_last = true`: the outermost coordinate (the K-th) runs only up to
`ploidy - 1`, and each inner block is a full colex enumeration. -/
theorem enum_unphased_fst (P m : Nat) :
    (bgen_enumerate_unphased P (m + 2) true).map Prod.fst =
      (List.range P).flatMap fun i =>
        (sumVecs (P - i) m).map fun w => w ++ [(i : Int)] := by
  show ((intsBelow _).flatMap _).map Prod.fst = _
  rw [if_pos (show m + 1 = m + 2 - 1 ∧ true = true from by simp)]
  rw [show ((P : Int) - 0 - 1 + 1) = ((P : Nat) : Int) from by omega]
  rw [intsBelow_natCast, List.flatMap_map, List.map_flatMap]
  apply flatMap_congr_mem
  intro i hi
  rw [List.mem_range] at hi
  rw [show (0 : Int) + (i : Nat) = ((i : Nat) : Int) from by omega]
  rw [unphasedGo_true_eq_false P (m + 2) m (by omega) _ _,
    unphasedGo_false_eq P (m + 2) m i [(i : Int)] (by omega)]
  rw [List.map_map]
  apply List.map_congr_left
  intro w _
  simp

/-- Splitting off the last colex vector `(0, ..., 0, P)`. -/
theorem sumVecs_succ_decomp (P m : Nat) :
    sumVecs P (m + 1) =
      ((List.range P).flatMap fun i =>
        (sumVecs (P - i) m).map fun w => w ++ [(i : Int)]) ++
      [List.replicate (m + 1) (0 : Int) ++ [(P : Int)]] := by
  show (List.range (P + 1)).flatMap _ = _
  rw [List.range_succ, List.flatMap_append]
  congr 1
  rw [show List.flatMap [P] (fun i => (sumVecs (P - i) m).map fun w =>
    w ++ [(i : Int)]) = (sumVecs (P - P) m).map fun w => w ++ [(P : Int)] from by
      simp]
  rw [Nat.sub_self, sumVecs_zero]
  simp

/-- Callback count of the unphased enumeration with the last slot dropped. -/
theorem enum_unphased_length (P K : Nat) (hK : 2 ≤ K) :
    (bgen_enumerate_unphased P K true).length =
      Nat.choose (P + K - 1) (K - 1) - 1 := by
  obtain ⟨m, rfl⟩ : ∃ m, K = m + 2 := ⟨K - 2, by omega⟩
  have h1 : ((bgen_enumerate_unphased P (m + 2) true).map Prod.fst).length + 1 =
      (sumVecs P (m + 1)).length := by
    rw [enum_unphased_fst, sumVecs_succ_decomp, List.length_append,
      List.length_singleton]
  rw [List.length_map] at h1
  rw [sumVecs_length] at h1
  have h2 : 1 ≤ Nat.choose (P + (m + 1)) (m + 1) := Nat.choose_pos (by omega)
  have h3 : P + (m + 2) - 1 = P + (m + 1) := by omega
  have h4 : m + 2 - 1 = m + 1 := by omega
  rw [h3, h4]
  omega

/-- C1 (amended): for every ploidy `P ≥ 1` and allele count `K ≥ 2`,
`bgen_enumerate_unphased` with `drop_last = true` invokes its callback exactly
`C(P+K-1, K-1) - 1` times, once per allele-count vector of non-negative
integers summing to `P`, in colex order (the K-th coordinate most
significant), with the last vector `(0, ..., 0, P)` omitted.  (For `K = 1`
the source fires the callback once instead of zero times, so the claim's
`K ≥ 1` bound must be tightened to `K ≥ 2`.) -/
theorem C1_unphased_enumeration (P K : Nat) (hP : 1 ≤ P) (hK : 2 ≤ K) :
    ((bgen_enumerate_unphased P K true).map Prod.fst).length =
      Nat.choose (P + K - 1) (K - 1) - 1 ∧
    ((bgen_enumerate_unphased P K true).map Prod.fst).Pairwise colexLt ∧
    (∀ v, v ∈ (bgen_enumerate_unphased P K true).map Prod.fst ↔
      v.length = K ∧ (∀ x ∈ v, 0 ≤ x) ∧ v.sum = (P : Int) ∧
        v ≠ List.replicate (K - 1) 0 ++ [(P : Int)]) := by
  obtain ⟨m, rfl⟩ : ∃ m, K = m + 2 := ⟨K - 2, by omega⟩
  have hdecomp : (bgen_enumerate_unphased P (m + 2) true).map Prod.fst ++
      [List.replicate (m + 1) (0 : Int) ++ [(P : Int)]] = sumVecs P (m + 1) := by
    rw [enum_unphased_fst, sumVecs_succ_decomp]
  have hpw : (sumVecs P (m + 1)).Pairwise colexLt := sumVecs_pairwise (m + 1) P
  rw [← hdecomp] at hpw
  obtain ⟨hpwF, -, hcross⟩ := List.pairwise_append.1 hpw
  have hlast_not : (List.replicate (m + 1) (0 : Int) ++ [(P : Int)]) ∉
      (bgen_enumerate_unphased P (m + 2) true).map Prod.fst := by
    intro hmem
    exact colexLt_irrefl _ (hcross _ hmem _ (by simp))
  refine ⟨?_, hpwF, ?_⟩
  · rw [List.length_map]
    exact enum_unphased_length P (m + 2) (by omega)
  · intro v
    have hKsub : m + 2 - 1 = m + 1 := by omega
    rw [hKsub]
    constructor
    · intro hv
      have hv' : v ∈ sumVecs P (m + 1) := by
        rw [← hdecomp]
        exact List.mem_append_left _ hv
      obtain ⟨h1, h2, h3⟩ := (sumVecs_mem (m + 1) P v).1 hv'
      refine ⟨h1, h2, h3, ?_⟩
      intro hveq
      rw [hveq] at hv
      exact hlast_not hv
    · rintro ⟨h1, h2, h3, h4⟩
      have hv' : v ∈ sumVecs P (m + 1) := (sumVecs_mem (m + 1) P v).2 ⟨h1, h2, h3⟩
      rw [← hdecomp] at hv'
      rcases List.mem_append.1 hv' with hv | hv
      · exact hv
      · rw [List.mem_singleton] at hv
        exact absurd hv h4

theorem C1_witness :
    (1 ≤ 2 ∧ 2 ≤ 3) ∧
    (((bgen_enumerate_unphased 2 3 true).map Prod.fst).length =
      Nat.choose (2 + 3 - 1) (3 - 1) - 1 ∧
    ((bgen_enumerate_unphased 2 3 true).map Prod.fst).Pairwise colexLt ∧
    (∀ v, v ∈ (bgen_enumerate_unphased 2 3 true).map Prod.fst ↔
      v.length = 3 ∧ (∀ x ∈ v, 0 ≤ x) ∧ v.sum = (2 : Int) ∧
        v ≠ List.replicate (3 - 1) 0 ++ [(2 : Int)])) :=
  ⟨⟨by decide, by decide⟩, C1_unphased_enumeration 2 3 (by decide) (by decide)⟩

/-- C1 counterexample: at ploidy 1 and allele count 1 (allowed by the claim's
`K ≥ 1`) the callback is invoked once, with the vector `(1)`, not
`C(1+1-1, 1-1) - 1 = 0` times: the only slot is not dropped when `K = 1`. -/
theorem C1_counterexample :
    bgen_enumerate_unphased 1 1 true = [([1], -1)] ∧
    Nat.choose (1 + 1 - 1) (1 - 1) - 1 = 0 :=
  ⟨by decide, rfl⟩

/-- C5 (amended): `bgen_empty_cell` appends to the genotype buffer exactly one
zero byte per probability slot and nothing else: `P * (K - 1)` zero bytes when
phased, and, for `K ≥ 2`, `C(P+K-1, K-1) - 1` zero bytes when unphased.  (For
`K = 1` the unphased case appends one zero byte, not `C(P, 0) - 1 = 0`.) -/
theorem C5_empty_cell (P K : Nat) (buf : List Nat) :
    bgen_empty_cell P K true buf = buf ++ List.replicate (P * (K - 1)) 0 ∧
    (2 ≤ K → bgen_empty_cell P K false buf =
      buf ++ List.replicate (Nat.choose (P + K - 1) (K - 1) - 1) 0) := by
  constructor
  · show buf ++ (bgen_enumerate_phased P K true).map (fun _ => 0) = _
    rw [List.map_const', phased_length]
  · intro hK
    show buf ++ (bgen_enumerate_unphased P K true).map (fun _ => 0) = _
    rw [List.map_const', enum_unphased_length P K hK]

theorem C5_witness :
    (bgen_empty_cell 2 3 true [7] = [7] ++ List.replicate (2 * (3 - 1)) 0 ∧
    (2 ≤ 3 → bgen_empty_cell 2 3 false [7] =
      [7] ++ List.replicate (Nat.choose (2 + 3 - 1) (3 - 1) - 1) 0)) ∧
    bgen_empty_cell 2 3 false [7] =
      [7] ++ List.replicate (Nat.choose (2 + 3 - 1) (3 - 1) - 1) 0 :=
  ⟨C5_empty_cell 2 3 [7], (C5_empty_cell 2 3 [7]).2 (by decide)⟩

/-- C5 counterexample: for a missing cell with ploidy 1 and a single allele,
unphased, the code appends one zero byte while the claimed count
`C(1+1-1, 1-1) - 1` is zero. -/
theorem C5_counterexample :
    bgen_empty_cell 1 1 false [] = [0] ∧
    Nat.choose (1 + 1 - 1) (1 - 1) - 1 = 0 :=
  ⟨by decide, rfl⟩

end GenomicsDB
